import Mathlib

/-!
Verification of the storytelling chatbot frame processors
(examples/storytelling-chatbot/src/processors.py).

Text is modelled as `List Char`.  The regular-expression searches used by
`StoryProcessor.process_text_content` are embedded as explicit leftmost-match
scanning functions:

* `imageSearch` models `re.search(r"<(.*?)>", text)`: the leftmost position
  holding a `<` from which a `>` is reachable without crossing a newline
  (Python `.` does not match a newline), with the lazily matched payload.
* `breakSearchCS` models `re.search(r"\[[bB]reak\]", text)` (no IGNORECASE
  flag): the leftmost occurrence of the literal token in casing `[break]`
  or `[Break]` only.
* `breakSearchCI` models the split pattern
  `re.split(r"\[[bB]reak\]", text, flags=re.IGNORECASE, maxsplit=1)`:
  the leftmost occurrence of the token in any casing.

Python `str.strip()` is modelled over the ASCII whitespace characters.
-/

namespace Storytelling

/-- Whitespace characters removed by Python `str.strip()` (ASCII range). -/
def isPySpace (c : Char) : Bool :=
  c == ' ' || c == '\t' || c == '\n' || c == '\r' ||
    c == Char.ofNat 11 || c == Char.ofNat 12

/-- Python `str.strip()`: drop leading and trailing whitespace. -/
def pyStrip (cs : List Char) : List Char :=
  ((cs.dropWhile isPySpace).reverse.dropWhile isPySpace).reverse

/-- Python `str.replace("\n", " ")`: each newline becomes a single space. -/
def collapseNewlines (cs : List Char) : List Char :=
  cs.map (fun c => if c = '\n' then ' ' else c)

/-- Index of the first `>` reachable without crossing a newline, as matched
by the lazy `.*?` in the pattern `<(.*?)>` (Python `.` excludes `\n`). -/
def findGt : List Char → Option Nat
  | [] => none
  | c :: rest =>
    if c = '>' then some 0
    else if c = '\n' then none
    else (findGt rest).map (· + 1)

/-- Leftmost match of `re.search(r"<(.*?)>", cs)`: start index and payload
(the lazily matched group between `<` and the nearest viable `>`). -/
def imageSearch : List Char → Option (Nat × List Char)
  | [] => none
  | c :: rest =>
    if c = '<' then
      match findGt rest with
      | some k => some (0, rest.take k)
      | none => (imageSearch rest).map (fun p => (p.1 + 1, p.2))
    else (imageSearch rest).map (fun p => (p.1 + 1, p.2))

/-- The break token `[break]` in lowered form. -/
def breakToken : List Char := ['[', 'b', 'r', 'e', 'a', 'k', ']']

/-- Does `cs` begin with `[break]` or `[Break]` (the only casings matched by
the search pattern `\[[bB]reak\]`, which has no IGNORECASE flag)? -/
def csBreakAt (cs : List Char) : Bool :=
  cs.take 7 == breakToken || cs.take 7 == ['[', 'B', 'r', 'e', 'a', 'k', ']']

/-- Does `cs` begin with the break token in any casing (the split pattern
`\[[bB]reak\]` is applied with `flags=re.IGNORECASE`)? -/
def ciBreakAt (cs : List Char) : Bool :=
  (cs.take 7).map Char.toLower == breakToken

/-- Leftmost index where `csBreakAt` holds: `re.search(r"\[[bB]reak\]", cs)`. -/
def breakSearchCS : List Char → Option Nat
  | [] => none
  | c :: rest =>
    if csBreakAt (c :: rest) then some 0
    else (breakSearchCS rest).map (· + 1)

/-- Leftmost index where `ciBreakAt` holds (case-insensitive). -/
def breakSearchCI : List Char → Option Nat
  | [] => none
  | c :: rest =>
    if ciBreakAt (c :: rest) then some 0
    else (breakSearchCI rest).map (· + 1)

/-- `re.split(r"\[[bB]reak\]", cs, flags=re.IGNORECASE, maxsplit=1)`:
the part before the first case-insensitive marker and, when a marker is
present, the part after it. -/
def splitCI (cs : List Char) : List Char × Option (List Char) :=
  match breakSearchCI cs with
  | some i => (cs.take i, some (cs.drop (i + 7)))
  | none => (cs, none)

/-- Frames pushed downstream by the two processors.  Cue and sound frames
carry no text that matters here; the pass-through arm forwards the opaque
identifier of an unrecognized input frame. -/
inductive OutFrame
  | storyPage (t : List Char)
  | storyImage (t : List Char)
  | storyPrompt (t : List Char)
  | cueAssistantTurn
  | cueUserTurn
  | soundTalking
  | soundListening
  | llmResponseEnd
  | passOther (n : Nat)
deriving DecidableEq, Repr

/-- The break branch of the extraction loop (processors.py lines 139-151):
split at the first case-insensitive marker, normalize the pre-marker
segment, and emit a page plus assistant-turn cue only when the normalized
segment is longer than 2 characters; the buffer becomes the stripped
remainder (empty when nothing follows). -/
def breakStep (cs : List Char) : List OutFrame × List (List Char) × List Char :=
  let parts := splitCI cs
  let beforeBreak := pyStrip (collapseNewlines parts.1)
  let emitted :=
    if 2 < beforeBreak.length then
      ([OutFrame.storyPage beforeBreak, OutFrame.cueAssistantTurn], [beforeBreak])
    else ([], ([] : List (List Char)))
  match parts.2 with
  | some after => (emitted.1, emitted.2, pyStrip after)
  | none => (emitted.1, emitted.2, [])

/-- One iteration of the extraction loop (processors.py lines 120-151):
find the earliest image tag and the earliest (case-sensitively searched)
break marker; stop when neither exists; otherwise process whichever starts
first, the break marker winning ties.  Returns the pushed frames, the story
entries appended, and the new buffer. -/
def extractStep (cs : List Char) :
    Option (List OutFrame × List (List Char) × List Char) :=
  match imageSearch cs, breakSearchCS cs with
  | none, none => none
  | some (s, p), none =>
    some ([OutFrame.storyImage p], [], cs.take s ++ cs.drop (s + p.length + 2))
  | none, some _ => some (breakStep cs)
  | some (s, p), some b =>
    if s < b then
      some ([OutFrame.storyImage p], [], cs.take s ++ cs.drop (s + p.length + 2))
    else some (breakStep cs)

/-- The extraction loop, driven by explicit fuel; each successful step
strictly shrinks the buffer, so `length + 1` units of fuel always reach the
fixed point (proved below). -/
def processLoop : Nat → List Char → List OutFrame × List (List Char) × List Char
  | 0, cs => ([], [], cs)
  | n + 1, cs =>
    match extractStep cs with
    | none => ([], [], cs)
    | some (fs, es, cs') =>
      let r := processLoop n cs'
      (fs ++ r.1, es ++ r.2.1, r.2.2)

/-- `StoryProcessor.process_text_content`: run the extraction loop to its
fixed point.  Returns the pushed frames, the story entries appended, and the
final buffer. -/
def processTextContent (cs : List Char) :
    List OutFrame × List (List Char) × List Char :=
  processLoop (cs.length + 1) cs

/-- Mutable state of a `StoryProcessor`: the text buffer `_text` and the
story list `_story`. -/
structure StoryState where
  text : List Char
  story : List (List Char)
deriving DecidableEq, Repr

/-- Input frames delivered to `StoryProcessor.process_frame`.  The frame
classes `StoryPageFrame`, `StoryImageFrame` and `StoryPromptFrame` are
subclasses of `TextFrame`, so `isinstance(frame, TextFrame)` is true for
them; they are listed as separate constructors so that dispatch on them can
be stated.  `other` stands for any frame outside the taxonomy, carrying an
opaque identifier. -/
inductive InFrame
  | userStoppedSpeaking
  | textFrame (t : List Char)
  | storyPageFrame (t : List Char)
  | storyImageFrame (t : List Char)
  | storyPromptFrame (t : List Char)
  | llmFullResponseEnd
  | other (n : Nat)
deriving DecidableEq, Repr

/-- The `TextFrame` arm of `process_frame` (lines 97-101): append the
payload to the buffer and run the extraction loop. -/
def processTextDelta (st : StoryState) (t : List Char) :
    StoryState × List OutFrame :=
  let r := processTextContent (st.text ++ t)
  (⟨r.2.2, st.story ++ r.2.1⟩, r.1)

/-- `StoryProcessor.process_frame` (lines 89-116).  Dispatch follows the
isinstance chain of the source: `UserStoppedSpeakingFrame` first, then
`TextFrame` (which catches the three Story subframes as well), then
`LLMFullResponseEndFrame`, and finally pass-through.  Returns the new state
and the frames pushed, in push order. -/
def processFrame (st : StoryState) (f : InFrame) : StoryState × List OutFrame :=
  match f with
  | .userStoppedSpeaking => (st, [OutFrame.cueAssistantTurn, OutFrame.soundTalking])
  | .textFrame t => processTextDelta st t
  | .storyPageFrame t => processTextDelta st t
  | .storyImageFrame t => processTextDelta st t
  | .storyPromptFrame t => processTextDelta st t
  | .llmFullResponseEnd =>
    (⟨[], st.story⟩,
      [OutFrame.storyPrompt st.text, OutFrame.llmResponseEnd,
        OutFrame.cueUserTurn, OutFrame.soundListening])
  | .other n => (st, [OutFrame.passOther n])

/-- Deliver a sequence of input frames one at a time, collecting all pushed
frames in order. -/
def feedFrames (st : StoryState) : List InFrame → StoryState × List OutFrame
  | [] => (st, [])
  | f :: fs =>
    let r := processFrame st f
    let r' := feedFrames r.1 fs
    (r'.1, r.2 ++ r'.2)

/-- The payload of a page frame, used to relate pushed pages to story
entries. -/
def pageText : OutFrame → Option (List Char)
  | .storyPage t => some t
  | _ => none

/-- Validity of a story entry: it contains no newline character, starts and
ends with a non-whitespace character, and is longer than 2 characters. -/
def storyEntryOk (e : List Char) : Prop :=
  '\n' ∉ e ∧ (∀ c, e.head? = some c → isPySpace c = false) ∧
    (∀ c, e.getLast? = some c → isPySpace c = false) ∧ 2 < e.length

/-- Decidable guard: the case-sensitive break search either fails on `cs` or
finds its first marker strictly after index `s`. -/
def noBreakBefore (cs : List Char) (s : Nat) : Bool :=
  match breakSearchCS cs with
  | none => true
  | some b => decide (s < b)

/-! ### StoryImageProcessor

`StoryImageProcessor.process_frame` (lines 54-66) consumes a
`StoryImageFrame` by iterating the image-generation stream inside
`async with timeout(7)` and pushing every produced frame; a `TimeoutError`
is swallowed.  The bounded wait is modelled with discrete time: the
generation stream is a list of (arrival time, frame identifier) pairs in
production order, and the frames forwarded are those the stream produces
strictly before the bound expires; on expiry the remainder of the stream is
abandoned.  Any other input frame is pushed through unchanged. -/

/-- Input frames of the image stage: an image trigger or anything else
(opaque). -/
inductive ImgInFrame
  | storyImage (t : List Char)
  | other (n : Nat)
deriving DecidableEq, Repr

/-- Output frames of the image stage: a generated image frame (opaque
identifier) or a passed-through frame. -/
inductive ImgOutFrame
  | image (n : Nat)
  | passOther (n : Nat)
deriving DecidableEq, Repr

/-- The bound of `async with timeout(7)` in `StoryImageProcessor`. -/
def IMAGE_TIMEOUT : Nat := 7

/-- `StoryImageProcessor.process_frame`: on a `StoryImageFrame`, forward the
frames the generation stream produces before the 7-unit bound expires, in
production order, and abandon the rest without emitting anything else; on
any other frame, pass it through. -/
def imageProcess (stream : List (Nat × Nat)) : ImgInFrame → List ImgOutFrame
  | .storyImage _ =>
    (stream.takeWhile (fun p => p.1 < IMAGE_TIMEOUT)).map
      (fun p => ImgOutFrame.image p.2)
  | .other n => [ImgOutFrame.passOther n]

/-! ### Basic lemmas about the embedded operations -/

theorem pyStrip_length_le (cs : List Char) : (pyStrip cs).length ≤ cs.length := by
  unfold pyStrip
  rw [List.length_reverse]
  calc ((cs.dropWhile isPySpace).reverse.dropWhile isPySpace).length
      ≤ (cs.dropWhile isPySpace).reverse.length :=
        (List.dropWhile_sublist _).length_le
    _ = (cs.dropWhile isPySpace).length := List.length_reverse _
    _ ≤ cs.length := (List.dropWhile_sublist _).length_le

theorem findGt_decomp : ∀ {l : List Char} {k : Nat}, findGt l = some k →
    ∃ v, l = l.take k ++ '>' :: v := by
  intro l
  induction l with
  | nil => intro k h; simp [findGt] at h
  | cons c rest ih =>
    intro k h
    by_cases hgt : c = '>'
    · subst hgt
      simp [findGt] at h
      subst h
      exact ⟨rest, rfl⟩
    · by_cases hnl : c = '\n'
      · subst hnl; simp [findGt] at h
      · simp [findGt, hgt, hnl] at h
        obtain ⟨k', hk', rfl⟩ := h
        obtain ⟨v, hv⟩ := ih hk'
        refine ⟨v, ?_⟩
        rw [List.take_succ_cons]
        exact congrArg (c :: ·) hv

theorem imageSearch_decomp : ∀ {cs : List Char} {s : Nat} {p : List Char},
    imageSearch cs = some (s, p) →
    ∃ u v, cs = u ++ '<' :: (p ++ '>' :: v) ∧ u.length = s := by
  intro cs
  induction cs with
  | nil => intro s p h; simp [imageSearch] at h
  | cons c rest ih =>
    intro s p h
    by_cases hlt : c = '<'
    · subst hlt
      cases hg : findGt rest with
      | some k =>
        simp [imageSearch, hg] at h
        obtain ⟨rfl, rfl⟩ := h
        obtain ⟨v, hv⟩ := findGt_decomp hg
        exact ⟨[], v, congrArg ('<' :: ·) hv, rfl⟩
      | none =>
        simp [imageSearch, hg] at h
        obtain ⟨s', hs', rfl⟩ := h
        obtain ⟨u, v, hu, hlen⟩ := ih hs'
        exact ⟨'<' :: u, v, congrArg ('<' :: ·) hu, by simp [hlen]⟩
    · simp [imageSearch, hlt] at h
      obtain ⟨s', hs', rfl⟩ := h
      obtain ⟨u, v, hu, hlen⟩ := ih hs'
      exact ⟨c :: u, v, congrArg (c :: ·) hu, by simp [hlen]⟩

theorem image_remove_eq {cs : List Char} {s : Nat} {p : List Char}
    (h : imageSearch cs = some (s, p)) :
    ∃ u v, cs = u ++ '<' :: (p ++ '>' :: v) ∧ u.length = s ∧
      cs.take s ++ cs.drop (s + p.length + 2) = u ++ v := by
  obtain ⟨u, v, hcs, hlen⟩ := imageSearch_decomp h
  refine ⟨u, v, hcs, hlen, ?_⟩
  have hassoc : cs = (u ++ '<' :: (p ++ ['>'])) ++ v := by
    rw [hcs]; simp
  have hlen2 : (u ++ '<' :: (p ++ ['>'])).length = s + p.length + 2 := by
    simp [hlen]; omega
  have htake : cs.take s = u := by
    rw [hcs, ← hlen, List.take_left]
  have hdrop : cs.drop (s + p.length + 2) = v := by
    rw [hassoc, ← hlen2, List.drop_left]
  rw [htake, hdrop]

theorem imageStep_length_lt {cs : List Char} {s : Nat} {p : List Char}
    (h : imageSearch cs = some (s, p)) :
    (cs.take s ++ cs.drop (s + p.length + 2)).length < cs.length := by
  obtain ⟨u, v, hcs, _, heq⟩ := image_remove_eq h
  rw [heq, hcs]
  simp
  omega

theorem breakSearchCI_le : ∀ {cs : List Char} {i : Nat},
    breakSearchCI cs = some i → i + 7 ≤ cs.length := by
  intro cs
  induction cs with
  | nil => intro i h; simp [breakSearchCI] at h
  | cons c rest ih =>
    intro i h
    by_cases hc : ciBreakAt (c :: rest) = true
    · simp [breakSearchCI, hc] at h
      subst h
      have : ((c :: rest).take 7).length = 7 := by
        have := congrArg List.length (beq_iff_eq.mp hc)
        simpa [breakToken] using this
      rw [List.length_take] at this
      omega
    · simp [breakSearchCI, hc] at h
      obtain ⟨i', hi', rfl⟩ := h
      have := ih hi'
      simp
      omega

theorem breakSearchCS_ne_nil {cs : List Char} {b : Nat}
    (h : breakSearchCS cs = some b) : cs ≠ [] := by
  intro hnil
  subst hnil
  simp [breakSearchCS] at h

theorem breakStep_length_lt {cs : List Char} (hne : cs ≠ []) :
    (breakStep cs).2.2.length < cs.length := by
  unfold breakStep splitCI
  cases h : breakSearchCI cs with
  | none =>
    simp
    exact List.length_pos.mpr hne
  | some i =>
    have hle := breakSearchCI_le h
    have hstrip := pyStrip_length_le (cs.drop (i + 7))
    simp
    rw [List.length_drop] at hstrip
    omega

theorem extractStep_cases {cs : List Char}
    {r : List OutFrame × List (List Char) × List Char}
    (h : extractStep cs = some r) :
    (∃ s p, imageSearch cs = some (s, p) ∧
      r = ([OutFrame.storyImage p], [],
        cs.take s ++ cs.drop (s + p.length + 2)))
    ∨ ((∃ b, breakSearchCS cs = some b) ∧ r = breakStep cs) := by
  unfold extractStep at h
  cases himg : imageSearch cs with
  | none =>
    cases hbrk : breakSearchCS cs with
    | none =>
      rw [himg, hbrk] at h
      exact absurd ((Option.noConfusion · : (none : Option _) = some r → False)) (by exact fun hk => hk h)
    | some b =>
      rw [himg, hbrk] at h
      have h' : some (breakStep cs) = some r := h
      exact Or.inr ⟨⟨b, rfl⟩, (Option.some.inj h').symm⟩
  | some sp =>
    obtain ⟨s, p⟩ := sp
    cases hbrk : breakSearchCS cs with
    | none =>
      rw [himg, hbrk] at h
      have h' : some ([OutFrame.storyImage p], ([] : List (List Char)),
          cs.take s ++ cs.drop (s + p.length + 2)) = some r := h
      exact Or.inl ⟨s, p, rfl, (Option.some.inj h').symm⟩
    | some b =>
      rw [himg, hbrk] at h
      have h2 : (if s < b then
          some ([OutFrame.storyImage p], ([] : List (List Char)),
            cs.take s ++ cs.drop (s + p.length + 2))
        else some (breakStep cs)) = some r := h
      by_cases hsb : s < b
      · rw [if_pos hsb] at h2
        exact Or.inl ⟨s, p, rfl, (Option.some.inj h2).symm⟩
      · rw [if_neg hsb] at h2
        exact Or.inr ⟨⟨b, rfl⟩, (Option.some.inj h2).symm⟩

theorem extractStep_decreases {cs : List Char} {fs : List OutFrame}
    {es : List (List Char)} {cs' : List Char}
    (h : extractStep cs = some (fs, es, cs')) : cs'.length < cs.length := by
  rcases extractStep_cases h with ⟨s, p, himg, hr⟩ | ⟨⟨b, hbrk⟩, hr⟩
  · have : cs' = cs.take s ++ cs.drop (s + p.length + 2) :=
      congrArg (fun q => q.2.2) hr
    rw [this]
    exact imageStep_length_lt himg
  · have : cs' = (breakStep cs).2.2 := congrArg (fun q => q.2.2) hr
    rw [this]
    exact breakStep_length_lt (breakSearchCS_ne_nil hbrk)

theorem processLoop_eq_of_lt : ∀ (n m : Nat) (cs : List Char),
    cs.length < n → cs.length < m → processLoop n cs = processLoop m cs := by
  intro n
  induction n with
  | zero => intro m cs hn; omega
  | succ k ih =>
    intro m cs hn hm
    cases m with
    | zero => omega
    | succ l =>
      simp only [processLoop]
      cases hstep : extractStep cs with
      | none => rfl
      | some r =>
        obtain ⟨fs, es, cs'⟩ := r
        have hlt := extractStep_decreases hstep
        show (fs ++ (processLoop k cs').1, es ++ (processLoop k cs').2.1,
            (processLoop k cs').2.2) =
          (fs ++ (processLoop l cs').1, es ++ (processLoop l cs').2.1,
            (processLoop l cs').2.2)
        rw [ih l cs' (by omega) (by omega)]

theorem processTextContent_eq_loop {n : Nat} {cs : List Char}
    (h : cs.length < n) : processLoop n cs = processTextContent cs :=
  processLoop_eq_of_lt n (cs.length + 1) cs h (by omega)

theorem processTextContent_none {cs : List Char} (h : extractStep cs = none) :
    processTextContent cs = ([], [], cs) := by
  unfold processTextContent processLoop
  rw [h]

theorem processTextContent_step {cs : List Char} {fs : List OutFrame}
    {es : List (List Char)} {cs' : List Char}
    (h : extractStep cs = some (fs, es, cs')) :
    processTextContent cs =
      (fs ++ (processTextContent cs').1, es ++ (processTextContent cs').2.1,
        (processTextContent cs').2.2) := by
  have hlt := extractStep_decreases h
  have h1 : processTextContent cs =
      (fs ++ (processLoop cs.length cs').1, es ++ (processLoop cs.length cs').2.1,
        (processLoop cs.length cs').2.2) := by
    show processLoop (cs.length + 1) cs = _
    simp only [processLoop, h]
  rw [h1, processTextContent_eq_loop hlt]

theorem findGt_append {p : List Char} (v : List Char)
    (hgt : '>' ∉ p) (hnl : '\n' ∉ p) :
    findGt (p ++ '>' :: v) = some p.length := by
  induction p with
  | nil => simp [findGt]
  | cons c t ih =>
    have hc1 : ¬(c = '>') := by
      intro h
      subst h
      exact hgt (List.mem_cons_self _ _)
    have hc2 : ¬(c = '\n') := by
      intro h
      subst h
      exact hnl (List.mem_cons_self _ _)
    have ht1 : '>' ∉ t := fun h => hgt (List.mem_cons_of_mem _ h)
    have ht2 : '\n' ∉ t := fun h => hnl (List.mem_cons_of_mem _ h)
    simp [findGt, hc1, hc2, ih ht1 ht2]

theorem imageSearch_append {a p : List Char} (b : List Char)
    (ha : '<' ∉ a) (hgt : '>' ∉ p) (hnl : '\n' ∉ p) :
    imageSearch (a ++ '<' :: (p ++ '>' :: b)) = some (a.length, p) := by
  induction a with
  | nil =>
    simp only [List.nil_append, imageSearch, if_pos rfl]
    rw [findGt_append b hgt hnl]
    simp [List.take_left]
  | cons c t ih =>
    have hc : ¬(c = '<') := by
      intro h
      subst h
      exact ha (List.mem_cons_self _ _)
    have ht : '<' ∉ t := fun h => ha (List.mem_cons_of_mem _ h)
    simp [imageSearch, hc, ih ht]

theorem image_take_drop {a p b : List Char} :
    (a ++ '<' :: (p ++ '>' :: b)).take a.length ++
      (a ++ '<' :: (p ++ '>' :: b)).drop (a.length + p.length + 2) = a ++ b := by
  have hassoc : a ++ '<' :: (p ++ '>' :: b) = (a ++ '<' :: (p ++ ['>'])) ++ b := by
    simp
  have hlen2 : (a ++ '<' :: (p ++ ['>'])).length = a.length + p.length + 2 := by
    simp
    omega
  have htake : (a ++ '<' :: (p ++ '>' :: b)).take a.length = a := by
    rw [show a ++ '<' :: (p ++ '>' :: b) = a ++ ('<' :: (p ++ '>' :: b)) from rfl]
    exact List.take_left a _
  have hdrop : (a ++ '<' :: (p ++ '>' :: b)).drop (a.length + p.length + 2) = b := by
    rw [hassoc, ← hlen2]
    exact List.drop_left _ b
  rw [htake, hdrop]

theorem extractStep_image {a p b : List Char} (ha : '<' ∉ a) (hgt : '>' ∉ p)
    (hnl : '\n' ∉ p)
    (hbr : noBreakBefore (a ++ '<' :: (p ++ '>' :: b)) a.length = true) :
    extractStep (a ++ '<' :: (p ++ '>' :: b)) =
      some ([OutFrame.storyImage p], [], a ++ b) := by
  have himg := imageSearch_append b ha hgt hnl
  cases hbs : breakSearchCS (a ++ '<' :: (p ++ '>' :: b)) with
  | none =>
    unfold extractStep
    rw [himg, hbs]
    show some ([OutFrame.storyImage p], [],
      (a ++ '<' :: (p ++ '>' :: b)).take a.length ++
        (a ++ '<' :: (p ++ '>' :: b)).drop (a.length + p.length + 2)) = _
    rw [image_take_drop]
  | some bb =>
    have hlt : a.length < bb := by
      unfold noBreakBefore at hbr
      rw [hbs] at hbr
      exact of_decide_eq_true hbr
    unfold extractStep
    rw [himg, hbs]
    show (if a.length < bb then
        some ([OutFrame.storyImage p], [],
          (a ++ '<' :: (p ++ '>' :: b)).take a.length ++
            (a ++ '<' :: (p ++ '>' :: b)).drop (a.length + p.length + 2))
      else some (breakStep (a ++ '<' :: (p ++ '>' :: b)))) = _
    rw [if_pos hlt, image_take_drop]

theorem dropWhile_head_false {p : Char → Bool} : ∀ {l : List Char} {c : Char}
    {r : List Char}, l.dropWhile p = c :: r → p c = false := by
  intro l
  induction l with
  | nil => intro c r h; simp at h
  | cons a t ih =>
    intro c r h
    cases hpa : p a with
    | true =>
      rw [List.dropWhile_cons, if_pos hpa] at h
      exact ih h
    | false =>
      rw [List.dropWhile_cons, if_neg (by simp [hpa])] at h
      obtain ⟨rfl, -⟩ := List.cons.inj h
      exact hpa

theorem dropWhile_getLast? {p : Char → Bool} : ∀ {l : List Char},
    l.dropWhile p ≠ [] → (l.dropWhile p).getLast? = l.getLast? := by
  intro l
  induction l with
  | nil => intro h; simp at h
  | cons a t ih =>
    intro h
    cases hpa : p a with
    | false => rw [List.dropWhile_cons, if_neg (by simp [hpa])]
    | true =>
      rw [List.dropWhile_cons, if_pos hpa] at h ⊢
      cases t with
      | nil => simp at h
      | cons b t' =>
        rw [ih h]
        exact List.getLast?_cons_cons.symm

theorem pyStrip_head_false {y : List Char} {c : Char} {r : List Char}
    (h : pyStrip y = c :: r) : isPySpace c = false := by
  unfold pyStrip at h
  set z := ((y.dropWhile isPySpace).reverse.dropWhile isPySpace) with hz
  have hzne : z ≠ [] := by
    intro hnil
    rw [hnil] at h
    simp at h
  have hhead : z.getLast? = some c := by
    rw [← List.head?_reverse, h]
    rfl
  rw [dropWhile_getLast? hzne, List.getLast?_reverse] at hhead
  cases hd : (y.dropWhile isPySpace) with
  | nil => rw [hd] at hhead; simp at hhead
  | cons d r' =>
    rw [hd] at hhead
    simp at hhead
    rw [← hhead]
    exact dropWhile_head_false hd

theorem pyStrip_getLast_false {y : List Char} {c : Char}
    (h : (pyStrip y).getLast? = some c) : isPySpace c = false := by
  unfold pyStrip at h
  rw [List.getLast?_reverse] at h
  cases hd : ((y.dropWhile isPySpace).reverse.dropWhile isPySpace) with
  | nil => rw [hd] at h; simp at h
  | cons d r' =>
    rw [hd] at h
    simp at h
    rw [← h]
    exact dropWhile_head_false hd

theorem mem_of_mem_pyStrip {a : Char} {l : List Char} (h : a ∈ pyStrip l) :
    a ∈ l := by
  unfold pyStrip at h
  rw [List.mem_reverse] at h
  have h2 := (List.dropWhile_sublist _).subset h
  rw [List.mem_reverse] at h2
  exact (List.dropWhile_sublist _).subset h2

theorem newline_not_mem_collapse {l : List Char} : '\n' ∉ collapseNewlines l := by
  unfold collapseNewlines
  intro h
  obtain ⟨c, -, hc⟩ := List.mem_map.mp h
  by_cases hcn : c = '\n'
  · rw [if_pos hcn] at hc
    exact absurd hc (by decide)
  · rw [if_neg hcn] at hc
    exact hcn hc

theorem storyEntryOk_pyStrip (x : List Char)
    (h : 2 < (pyStrip (collapseNewlines x)).length) :
    storyEntryOk (pyStrip (collapseNewlines x)) := by
  refine ⟨?_, ?_, ?_, h⟩
  · intro hm
    exact newline_not_mem_collapse (mem_of_mem_pyStrip hm)
  · intro c hc
    cases hps : pyStrip (collapseNewlines x) with
    | nil => rw [hps] at hc; simp at hc
    | cons d r =>
      rw [hps] at hc
      simp at hc
      rw [← hc]
      exact pyStrip_head_false hps
  · intro c hc
    exact pyStrip_getLast_false hc

theorem breakStep_pages (cs : List Char) :
    (breakStep cs).1.filterMap pageText = (breakStep cs).2.1 ∧
      ∀ e ∈ (breakStep cs).2.1, storyEntryOk e := by
  unfold breakStep
  by_cases hlen : 2 < (pyStrip (collapseNewlines (splitCI cs).1)).length
  · have hok := storyEntryOk_pyStrip (splitCI cs).1 hlen
    cases h2 : (splitCI cs).2 <;>
      simp [h2, hlen, pageText] <;> exact hok
  · cases h2 : (splitCI cs).2 <;> simp [h2, hlen]

theorem extractStep_pages {cs : List Char} {fs : List OutFrame}
    {es : List (List Char)} {cs' : List Char}
    (h : extractStep cs = some (fs, es, cs')) :
    fs.filterMap pageText = es ∧ ∀ e ∈ es, storyEntryOk e := by
  rcases extractStep_cases h with ⟨s, p, -, hr⟩ | ⟨-, hr⟩
  · simp only [Prod.mk.injEq] at hr
    obtain ⟨rfl, rfl, -⟩ := hr
    simp [pageText]
  · obtain ⟨h1, h2⟩ := breakStep_pages cs
    have hfs : fs = (breakStep cs).1 := congrArg (fun q => q.1) hr
    have hes : es = (breakStep cs).2.1 := congrArg (fun q => q.2.1) hr
    rw [hfs, hes]
    exact ⟨h1, h2⟩

theorem processLoop_pages : ∀ (n : Nat) (cs : List Char),
    (processLoop n cs).1.filterMap pageText = (processLoop n cs).2.1 ∧
      ∀ e ∈ (processLoop n cs).2.1, storyEntryOk e := by
  intro n
  induction n with
  | zero => intro cs; simp [processLoop]
  | succ k ih =>
    intro cs
    simp only [processLoop]
    cases hstep : extractStep cs with
    | none => simp
    | some r =>
      obtain ⟨fs, es, cs'⟩ := r
      obtain ⟨h1, h2⟩ := extractStep_pages hstep
      obtain ⟨h3, h4⟩ := ih cs'
      refine ⟨?_, ?_⟩
      · show (fs ++ (processLoop k cs').1).filterMap pageText =
          es ++ (processLoop k cs').2.1
        rw [List.filterMap_append, h1, h3]
      · intro e he
        have he' : e ∈ es ++ (processLoop k cs').2.1 := he
        rcases List.mem_append.mp he' with hel | her
        · exact h2 e hel
        · exact h4 e her

theorem processTextContent_pages (cs : List Char) :
    (processTextContent cs).1.filterMap pageText = (processTextContent cs).2.1 ∧
      ∀ e ∈ (processTextContent cs).2.1, storyEntryOk e :=
  processLoop_pages (cs.length + 1) cs

theorem processLoop_fixed : ∀ (n : Nat) (cs : List Char), cs.length < n →
    extractStep (processLoop n cs).2.2 = none := by
  intro n
  induction n with
  | zero => intro cs h; omega
  | succ k ih =>
    intro cs h
    simp only [processLoop]
    cases hstep : extractStep cs with
    | none => exact hstep
    | some r =>
      obtain ⟨fs, es, cs'⟩ := r
      have hlt := extractStep_decreases hstep
      exact ih cs' (by omega)

theorem takeWhile_eq_take_exists {α : Type} (q : α → Bool) :
    ∀ l : List α, ∃ k, l.takeWhile q = l.take k := by
  intro l
  induction l with
  | nil => exact ⟨0, rfl⟩
  | cons a t ih =>
    cases hqa : q a with
    | true =>
      obtain ⟨k, hk⟩ := ih
      refine ⟨k + 1, ?_⟩
      rw [List.takeWhile_cons, if_pos hqa, List.take_succ_cons, hk]
    | false =>
      refine ⟨0, ?_⟩
      rw [List.takeWhile_cons, if_neg (by simp [hqa])]
      rfl

/-! ### Claim theorems -/

/-- Claim C1 (code bug): the spec says any buffer whose earliest unconsumed
pattern is a break marker (matched case-insensitively) is split at that
marker, with the normalized pre-marker segment emitted as a page exactly
when longer than 2 characters.  The search regex on line 123 of
processors.py lacks the IGNORECASE flag that the split on line 141 has, so
the buffer `Hello[BREAK]next` is left untouched and emits nothing, while the
identical buffer with the marker written `[break]` is split as the spec
describes (page `Hello`, assistant-turn cue, buffer `next`). -/
theorem c1_break_case_bug :
    processTextContent "Hello[BREAK]next".data =
        ([], [], "Hello[BREAK]next".data) ∧
      processTextContent "Hello[break]next".data =
        ([OutFrame.storyPage "Hello".data, OutFrame.cueAssistantTurn],
          ["Hello".data], "next".data) :=
  ⟨by decide, by decide⟩

/-- Claim C2 counterexample: the input `<a\nb>` contains an image tag whose
payload `a\nb` contains no `>`, and no break marker precedes it, yet
processing emits no image-trigger frame at all: Python `.` does not match a
newline, so `<(.*?)>` fails on a payload containing one. -/
theorem c2_counterexample :
    ('>' ∉ "a\nb".data) ∧
      "<a\nb>".data = '<' :: ("a\nb".data ++ '>' :: ([] : List Char)) ∧
      processTextContent "<a\nb>".data = ([], [], "<a\nb>".data) :=
  ⟨by decide, by decide, by decide⟩

/-- Claim C2 amended: for text `a<p>b` where the payload `p` contains
neither `>` nor a newline, no `<` occurs before the tag, and no
(case-sensitively searched) break marker starts before the tag, the
extraction step emits exactly one image-trigger frame carrying `p` and
removes exactly the matched span, leaving `a ++ b` contiguous; full
processing emits the image frame first and then behaves exactly as on
`a ++ b`, so the tag appears in no page text and the story entries and
final buffer agree with those of `a ++ b`. -/
theorem c2_image_tag (a p b : List Char) (ha : '<' ∉ a) (hgt : '>' ∉ p)
    (hnl : '\n' ∉ p)
    (hbr : noBreakBefore (a ++ '<' :: (p ++ '>' :: b)) a.length = true) :
    extractStep (a ++ '<' :: (p ++ '>' :: b)) =
        some ([OutFrame.storyImage p], [], a ++ b) ∧
      (processTextContent (a ++ '<' :: (p ++ '>' :: b))).1 =
        OutFrame.storyImage p :: (processTextContent (a ++ b)).1 ∧
      (processTextContent (a ++ '<' :: (p ++ '>' :: b))).2.1 =
        (processTextContent (a ++ b)).2.1 ∧
      (processTextContent (a ++ '<' :: (p ++ '>' :: b))).2.2 =
        (processTextContent (a ++ b)).2.2 := by
  have hstep := extractStep_image ha hgt hnl hbr
  have h1 := processTextContent_step hstep
  refine ⟨hstep, ?_, ?_, ?_⟩ <;> rw [h1] <;> rfl

theorem c2_image_tag_witness :
    extractStep ("x".data ++ '<' :: ("pic".data ++ '>' :: "y".data)) =
        some ([OutFrame.storyImage "pic".data], [], "x".data ++ "y".data) ∧
      (processTextContent ("x".data ++ '<' :: ("pic".data ++ '>' :: "y".data))).1 =
        OutFrame.storyImage "pic".data ::
          (processTextContent ("x".data ++ "y".data)).1 ∧
      (processTextContent ("x".data ++ '<' :: ("pic".data ++ '>' :: "y".data))).2.1 =
        (processTextContent ("x".data ++ "y".data)).2.1 ∧
      (processTextContent ("x".data ++ '<' :: ("pic".data ++ '>' :: "y".data))).2.2 =
        (processTextContent ("x".data ++ "y".data)).2.2 :=
  c2_image_tag "x".data "pic".data "y".data (by decide) (by decide) (by decide)
    (by decide)

/-- Claim C3 counterexample: on an end-of-response marker with an empty
buffer, the code still pushes a prompt-replay frame (with empty payload) as
its first output, where the claim says a prompt-replay frame is emitted
only if the buffer is non-empty (line 107 of processors.py pushes
unconditionally). -/
theorem c3_counterexample :
    (processFrame ⟨[], []⟩ InFrame.llmFullResponseEnd).2 =
        [OutFrame.storyPrompt [], OutFrame.llmResponseEnd,
          OutFrame.cueUserTurn, OutFrame.soundListening] ∧
      (processFrame ⟨[], []⟩ InFrame.llmFullResponseEnd).2.head? =
        some (OutFrame.storyPrompt []) :=
  ⟨rfl, rfl⟩

/-- Claim C3 amended: on an end-of-response marker the processor always
emits, in order, a prompt-replay frame carrying the buffer text (which may
be empty), the end marker, the user-turn UI cue, and the listening sound,
and the buffer is empty afterwards; the story is unchanged. -/
theorem c3_flush (st : StoryState) :
    processFrame st InFrame.llmFullResponseEnd =
      (⟨[], st.story⟩,
        [OutFrame.storyPrompt st.text, OutFrame.llmResponseEnd,
          OutFrame.cueUserTurn, OutFrame.soundListening]) := rfl

theorem c3_flush_witness :
    processFrame ⟨"hello".data, []⟩ InFrame.llmFullResponseEnd =
      (⟨[], []⟩,
        [OutFrame.storyPrompt "hello".data, OutFrame.llmResponseEnd,
          OutFrame.cueUserTurn, OutFrame.soundListening]) :=
  c3_flush ⟨"hello".data, []⟩

/-- Claim C4 (code bug): the spec says the break marker is matched
case-insensitively, but the search pattern on line 123 of processors.py
matches only the casings `[break]` and `[Break]`: the buffer
`Goodnight moon[BREAK]rest` is not segmented at all, while the same buffer
with `[Break]` is. -/
theorem c4_break_casing_bug :
    processTextContent "Goodnight moon[BREAK]rest".data =
        ([], [], "Goodnight moon[BREAK]rest".data) ∧
      processTextContent "Goodnight moon[Break]rest".data =
        ([OutFrame.storyPage "Goodnight moon".data, OutFrame.cueAssistantTurn],
          ["Goodnight moon".data], "rest".data) :=
  ⟨by decide, by decide⟩

/-- Claim C5 (code bug): splitting the complete string
`[break]a b[break]` into the deltas `[break]a ` and `b[break]` changes the
emitted frames: the single delta yields the page `a b`, while the split
yields nothing, because processing the first delta strips the trailing
space of the remainder kept in the buffer (line 151 of processors.py), so
the later page text collapses to the 2-character `ab` and is dropped by the
length check. -/
theorem c5_fragmentation_bug :
    "[break]a ".data ++ "b[break]".data = "[break]a b[break]".data ∧
      (feedFrames ⟨[], []⟩
        [InFrame.textFrame "[break]a ".data,
          InFrame.textFrame "b[break]".data]).2 = [] ∧
      (feedFrames ⟨[], []⟩ [InFrame.textFrame "[break]a b[break]".data]).2 =
        [OutFrame.storyPage "a b".data, OutFrame.cueAssistantTurn] ∧
      (feedFrames ⟨[], []⟩
          [InFrame.textFrame "[break]a ".data,
            InFrame.textFrame "b[break]".data]).2 ≠
        (feedFrames ⟨[], []⟩ [InFrame.textFrame "[break]a b[break]".data]).2 :=
  ⟨by decide, by decide, by decide, by decide⟩

/-- Claim C6: under the 7-unit bound of `StoryImageProcessor` (modelled
with discrete arrival times), a stream that completes before the bound is
forwarded in full and in production order; in general the forwarded frames
are an in-order prefix of the stream (frames forwarded before expiry stay
forwarded, the remainder is abandoned); no error or retry frame is ever
emitted (every output is an image frame); and a stream whose first output
arrives at 8 or more time units forwards zero frames. -/
theorem c6_image_timeout (stream : List (Nat × Nat)) (t : List Char) :
    ((∀ q ∈ stream, q.1 < IMAGE_TIMEOUT) →
        imageProcess stream (ImgInFrame.storyImage t) =
          stream.map (fun q => ImgOutFrame.image q.2)) ∧
      (∃ k, imageProcess stream (ImgInFrame.storyImage t) =
        (stream.take k).map (fun q => ImgOutFrame.image q.2)) ∧
      (∀ f ∈ imageProcess stream (ImgInFrame.storyImage t),
        ∃ n, f = ImgOutFrame.image n) ∧
      (∀ a i rest, stream = (a, i) :: rest → 8 ≤ a →
        imageProcess stream (ImgInFrame.storyImage t) = []) := by
  refine ⟨?_, ?_, ?_, ?_⟩
  · intro hall
    show (stream.takeWhile _).map _ = _
    rw [List.takeWhile_eq_self_iff.mpr (fun q hq => decide_eq_true (hall q hq))]
  · obtain ⟨k, hk⟩ := takeWhile_eq_take_exists
      (fun q : Nat × Nat => decide (q.1 < IMAGE_TIMEOUT)) stream
    exact ⟨k, by show (stream.takeWhile _).map _ = _; rw [hk]⟩
  · intro f hf
    have hf' : f ∈ (stream.takeWhile
        (fun q : Nat × Nat => decide (q.1 < IMAGE_TIMEOUT))).map
          (fun q => ImgOutFrame.image q.2) := hf
    obtain ⟨q, -, hq⟩ := List.mem_map.mp hf'
    exact ⟨q.2, hq.symm⟩
  · intro a i rest hs ha
    subst hs
    show (((a, i) :: rest).takeWhile _).map _ = _
    rw [List.takeWhile_cons, if_neg (by simp [IMAGE_TIMEOUT]; omega)]
    rfl

theorem c6_image_timeout_witness :
    imageProcess [(1, 10), (2, 11)] (ImgInFrame.storyImage "cat".data) =
        [ImgOutFrame.image 10, ImgOutFrame.image 11] ∧
      imageProcess [(8, 12)] (ImgInFrame.storyImage "dog".data) = [] :=
  ⟨(c6_image_timeout [(1, 10), (2, 11)] "cat".data).1 (by decide),
    (c6_image_timeout [(8, 12)] "dog".data).2.2.2 8 12 [] rfl (by decide)⟩

/-- Claim C7: the extraction loop terminates on every finite buffer: every
successful step strictly shrinks the buffer, and the loop run by
`processTextContent` reaches a fixed point where neither pattern matches
any longer. -/
theorem c7_termination (cs : List Char) :
    (∀ fs es cs', extractStep cs = some (fs, es, cs') →
        cs'.length < cs.length) ∧
      extractStep (processTextContent cs).2.2 = none :=
  ⟨fun _ _ _ h => extractStep_decreases h,
    processLoop_fixed (cs.length + 1) cs (Nat.lt_succ_self _)⟩

theorem c7_termination_witness :
    "cd<x>".data.length < "ab[break]cd<x>".data.length ∧
      extractStep (processTextContent "ab[break]cd<x>".data).2.2 = none :=
  ⟨(c7_termination "ab[break]cd<x>".data).1 [] [] "cd<x>".data (by decide),
    (c7_termination "ab[break]cd<x>".data).2⟩

/-- Claim C8 counterexample: on the buffer `abcd[break]  ef  ` the break
step leaves the buffer `ef`, although the text after the consumed
`abcd[break]` span is `  ef  `: the four whitespace characters removed lie
outside the span consumed by the pattern match, so the buffer does not
shrink only by exactly that span. -/
theorem c8_counterexample :
    extractStep "abcd[break]  ef  ".data =
        some ([OutFrame.storyPage "abcd".data, OutFrame.cueAssistantTurn],
          ["abcd".data], "ef".data) ∧
      "abcd[break]  ef  ".data.drop "abcd[break]".data.length =
        "  ef  ".data ∧
      "ef".data ≠ "  ef  ".data :=
  ⟨by decide, by decide, by decide⟩

/-- Claim C8 amended: the buffer grows only by appending the incoming text
payload before extraction runs, and each extraction step shrinks it in
exactly one of two ways: an image match removes exactly the matched
`<...>` span, and a break match removes the prefix through the first
case-insensitive marker and additionally trims leading and trailing
whitespace from the remainder (the remainder is empty when the split finds
no marker). -/
theorem c8_buffer_evolution (st : StoryState) (t : List Char) :
    ((processFrame st (InFrame.textFrame t)).1.text =
        (processTextContent (st.text ++ t)).2.2) ∧
      ∀ cs fs es cs', extractStep cs = some (fs, es, cs') →
        (∃ s p, imageSearch cs = some (s, p) ∧
            cs' = cs.take s ++ cs.drop (s + p.length + 2)) ∨
          (∃ i, breakSearchCI cs = some i ∧
            cs' = pyStrip (cs.drop (i + 7))) ∨
          (breakSearchCI cs = none ∧ cs' = []) := by
  refine ⟨rfl, ?_⟩
  intro cs fs es cs' h
  rcases extractStep_cases h with ⟨s, p, himg, hr⟩ | ⟨-, hr⟩
  · refine Or.inl ⟨s, p, himg, ?_⟩
    exact congrArg (fun q => q.2.2) hr
  · have hcs' : cs' = (breakStep cs).2.2 := congrArg (fun q => q.2.2) hr
    cases hci : breakSearchCI cs with
    | some i =>
      refine Or.inr (Or.inl ⟨i, rfl, ?_⟩)
      rw [hcs']
      simp [breakStep, splitCI, hci]
    | none =>
      refine Or.inr (Or.inr ⟨rfl, ?_⟩)
      rw [hcs']
      simp [breakStep, splitCI, hci]

theorem c8_buffer_evolution_witness :
    ((processFrame ⟨"ab".data, []⟩ (InFrame.textFrame "c".data)).1.text =
        (processTextContent ("ab".data ++ "c".data)).2.2) ∧
      ((∃ s p, imageSearch "x[break] y ".data = some (s, p) ∧
          "y".data = "x[break] y ".data.take s ++
            "x[break] y ".data.drop (s + p.length + 2)) ∨
        (∃ i, breakSearchCI "x[break] y ".data = some i ∧
          "y".data = pyStrip ("x[break] y ".data.drop (i + 7))) ∨
        (breakSearchCI "x[break] y ".data = none ∧ "y".data = [])) :=
  ⟨(c8_buffer_evolution ⟨"ab".data, []⟩ "c".data).1,
    (c8_buffer_evolution ⟨"ab".data, []⟩ "c".data).2 "x[break] y ".data
      [] [] "y".data (by decide)⟩

/-- Claim C9: the three Story frame classes are subclasses of `TextFrame`,
so `StoryProcessor` consumes them as text deltas rather than passing them
through: delivering a page, image, or prompt frame is identical to
delivering a plain text frame with the same payload, whose handling appends
the payload to the buffer and runs the extraction loop. -/
theorem c9_subframe_dispatch (st : StoryState) (t : List Char) :
    processFrame st (InFrame.storyPageFrame t) =
        processFrame st (InFrame.textFrame t) ∧
      processFrame st (InFrame.storyImageFrame t) =
        processFrame st (InFrame.textFrame t) ∧
      processFrame st (InFrame.storyPromptFrame t) =
        processFrame st (InFrame.textFrame t) ∧
      (processFrame st (InFrame.storyPageFrame t)).1.text =
        (processTextContent (st.text ++ t)).2.2 ∧
      (processFrame st (InFrame.storyPageFrame t)).2 =
        (processTextContent (st.text ++ t)).1 :=
  ⟨rfl, rfl, rfl, rfl, rfl⟩

theorem c9_subframe_dispatch_witness :
    processFrame ⟨[], []⟩ (InFrame.storyPageFrame "Go north[break]ok".data) =
        processFrame ⟨[], []⟩ (InFrame.textFrame "Go north[break]ok".data) ∧
      processFrame ⟨[], []⟩ (InFrame.storyPageFrame "Go north[break]ok".data) =
        (⟨"ok".data, ["Go north".data]⟩,
          [OutFrame.storyPage "Go north".data, OutFrame.cueAssistantTurn]) :=
  ⟨(c9_subframe_dispatch ⟨[], []⟩ "Go north[break]ok".data).1, by decide⟩

/-- Claim C10: every operation of `StoryProcessor` appends to the story
exactly the entries for which a page frame with identical text is pushed
(in the same order), and every entry appended contains no newline, starts
and ends with a non-whitespace character, and is longer than 2
characters. -/
theorem c10_story_invariant (st : StoryState) (f : InFrame) :
    ∃ es, (processFrame st f).1.story = st.story ++ es ∧
      (∀ e ∈ es, storyEntryOk e) ∧
      (processFrame st f).2.filterMap pageText = es := by
  cases f with
  | textFrame t =>
    exact ⟨(processTextContent (st.text ++ t)).2.1, rfl,
      (processTextContent_pages _).2, (processTextContent_pages _).1⟩
  | storyPageFrame t =>
    exact ⟨(processTextContent (st.text ++ t)).2.1, rfl,
      (processTextContent_pages _).2, (processTextContent_pages _).1⟩
  | storyImageFrame t =>
    exact ⟨(processTextContent (st.text ++ t)).2.1, rfl,
      (processTextContent_pages _).2, (processTextContent_pages _).1⟩
  | storyPromptFrame t =>
    exact ⟨(processTextContent (st.text ++ t)).2.1, rfl,
      (processTextContent_pages _).2, (processTextContent_pages _).1⟩
  | userStoppedSpeaking =>
    exact ⟨[], (List.append_nil st.story).symm, by simp, rfl⟩
  | llmFullResponseEnd =>
    exact ⟨[], (List.append_nil st.story).symm, by simp, rfl⟩
  | other n =>
    exact ⟨[], (List.append_nil st.story).symm, by simp, rfl⟩

theorem c10_story_invariant_witness :
    ∃ es, (processFrame ⟨[], []⟩
        (InFrame.textFrame "A small cat naps.[break]done".data)).1.story =
        [] ++ es ∧
      (∀ e ∈ es, storyEntryOk e) ∧
      (processFrame ⟨[], []⟩
        (InFrame.textFrame "A small cat naps.[break]done".data)).2.filterMap
          pageText = es :=
  c10_story_invariant ⟨[], []⟩
    (InFrame.textFrame "A small cat naps.[break]done".data)

end Storytelling
